import Mathlib

/-!
Shallow embedding of the `vunk-lexer` crate (src/vunk-lexer/src/lib.rs).

The source is a chumsky 0.x combinator lexer.  Each combinator is translated
into a total Lean function on `List Char`:

* a parser is a function `List Char → Option (output × List Char)` where the
  second component is the unconsumed remainder; `none` is parse failure
  (chumsky parsers rewind on failure, which is modelled by the caller keeping
  the original list);
* `or` is ordered choice (`pOr`), trying the right-hand side exactly when the
  left-hand side fails, as chumsky's backtracking `or` does;
* `repeated` loops (`text::whitespace`, comment padding, the token stream
  itself) are written with an explicit fuel argument so that every definition
  is structurally recursive and kernel-reducible; the fuel passed at the top
  level (`input.length + 1`) is sufficient because every loop body consumes
  at least one character, so the fuel never changes the extensional behaviour;
* spans (`std::ops::Range<usize>`) are pairs of byte offsets (`start`,
  `stop`); all input characters count one position each, matching chumsky's
  character streams over `Vec<char>` input;
* the `Simple<char>` diagnostics attached by `skip_then_retry_until([])`
  recovery are modelled by the span of the position at which no token rule
  matched (the position at which the recovery strategy starts skipping);
  one diagnostic is recorded per recovery episode, as in chumsky;
* `ScanResult.rest` records the remainder left unconsumed when the
  `repeated` token loop stops (chumsky simply leaves this in the stream);
  `rest = []` expresses that the whole input was consumed as tokens and
  trivia.
-/

namespace VunkLexer

/-- Models `pub type Span = std::ops::Range<usize>` (field `end` is called
`stop` because `end` is a Lean keyword). -/
structure Span where
  start : Nat
  stop : Nat
deriving DecidableEq, Repr

/-- The `Token` enum of the source, payloads as character lists. -/
inductive Token where
  | Ident (s : List Char)
  | Arrow
  | Ctrl (c : Char)
  | Op (s : List Char)
  | Num (s : List Char)
  | Str (s : List Char)
  | If
  | Then
  | Else
  | Let
  | In
  | Where
  | Match
  | When
  | TypeKw
  | Impl
  | Enum
  | Bool (b : Bool)
  | Use
  | Pub
  | Mod
  | Comment (s : List Char)
deriving DecidableEq, Repr

/-- Ordered choice: chumsky's `a.or(b)` (backtracking, first success wins). -/
def pOr {α : Type} (a b : Option α) : Option α :=
  match a with
  | some x => some x
  | none => b

/-- `rust char::is_whitespace` (the Unicode `White_Space` property), used by
chumsky's `TextParser::padded` via `text::whitespace`. -/
def isWhitespaceChar (c : Char) : Bool :=
  let n := c.toNat
  (0x9 ≤ n && n ≤ 0xD) || n == 0x20 || n == 0x85 || n == 0xA0 || n == 0x1680 ||
  (0x2000 ≤ n && n ≤ 0x200A) || n == 0x2028 || n == 0x2029 || n == 0x202F ||
  n == 0x205F || n == 0x3000

/-- `just(s)` for a character sequence: does `l` start with `s`? -/
def startsWith : List Char → List Char → Bool
  | [], _ => true
  | _ :: _, [] => false
  | p :: ps, c :: cs => p == c && startsWith ps cs

/-- `chumsky::text::int(10)`: a nonzero decimal digit followed by decimal
digits, or the single digit `0` (leading zeroes are rejected). -/
def int10 : List Char → Option (List Char × List Char)
  | [] => none
  | c :: rest =>
    if c.isDigit && c != '0' then
      some (c :: rest.takeWhile Char.isDigit, rest.dropWhile Char.isDigit)
    else if c == '0' then
      some (['0'], rest)
    else
      none

/-- `just('.').chain(text::digits(10))`: a dot followed by at least one
decimal digit (`text::digits(10)` needs one or more digits). -/
def numFrac (l : List Char) : Option (List Char × List Char) :=
  match l with
  | c :: rest2 =>
    if c = '.' then
      if (rest2.takeWhile Char.isDigit).isEmpty then none
      else some ('.' :: rest2.takeWhile Char.isDigit, rest2.dropWhile Char.isDigit)
    else none
  | [] => none

/-- The `num` parser: `text::int(10).chain(just('.').chain(text::digits(10)).or_not().flatten())`.
The fractional part is optional (`or_not`): when `numFrac` fails nothing
further is consumed. -/
def num (l : List Char) : Option (Token × List Char) :=
  match int10 l with
  | none => none
  | some (ds, rest) =>
    match numFrac rest with
    | some (fs, rest2) => some (Token.Num (ds ++ fs), rest2)
    | none => some (Token.Num ds, rest)

/-- The `str_` parser:
`just('"').ignore_then(filter(|c| *c != '"').repeated()).then_ignore(just('"'))`. -/
def str_ (l : List Char) : Option (Token × List Char) :=
  match l with
  | '"' :: rest =>
    match rest.dropWhile (fun c => c != '"') with
    | '"' :: rest2 => some (Token.Str (rest.takeWhile (fun c => c != '"')), rest2)
    | _ => none
  | _ => none

/-- The control character set of `one_of("(),=:+.;[]{}|")`. -/
def ctrlChars : List Char :=
  ['(', ')', ',', '=', ':', '+', '.', ';', '[', ']', '{', '}', '|']

/-- The `ctrl` parser: `one_of("(),=:+.;[]{}|").map(Token::Ctrl)`. -/
def ctrl : List Char → Option (Token × List Char)
  | [] => none
  | c :: rest => if ctrlChars.contains c then some (Token.Ctrl c, rest) else none

/-- A single-character operator parser, e.g. `just('+').map(|c| Token::Op(c.to_string()))`. -/
def opC (c : Char) : List Char → Option (Token × List Char)
  | [] => none
  | d :: rest => if d == c then some (Token.Op [c], rest) else none

/-- A multi-character operator parser, e.g. `just("==").map(|c| Token::Op(c.to_string()))`. -/
def opS (s : List Char) (l : List Char) : Option (Token × List Char) :=
  if startsWith s l then some (Token.Op s, l.drop s.length) else none

/-- The `operator` parser: the `or`-chain
`op_add.or(op_sub).or(op_mul).or(op_div).or(op_rem).or(op_eq).or(op_neq)
.or(op_less).or(op_less_eq).or(op_more).or(op_more_eq).or(op_bit_and)
.or(op_logical_and).or(op_bit_or).or(op_logical_or).or(op_bit_xor).or(op_join)`
in exactly the source's order. -/
def operator (l : List Char) : Option (Token × List Char) :=
  pOr (opC '+' l) (pOr (opC '-' l) (pOr (opC '*' l) (pOr (opC '/' l)
  (pOr (opC '%' l) (pOr (opS ['=', '='] l) (pOr (opS ['!', '='] l)
  (pOr (opC '<' l) (pOr (opS ['<', '='] l) (pOr (opC '>' l)
  (pOr (opS ['>', '='] l) (pOr (opC '&' l) (pOr (opS ['&', '&'] l)
  (pOr (opC '|' l) (pOr (opS ['|', '|'] l) (pOr (opC '^' l)
  (opS ['+', '+'] l))))))))))))))))

/-- A keyword parser `just(s).map(|_| tok)`. -/
def kwTok (s : List Char) (tok : Token) (l : List Char) : Option (Token × List Char) :=
  if startsWith s l then some (tok, l.drop s.length) else none

/-- First-character class of the source's `ident` function:
`chr.is_ascii_alphabetic() || chr == '_' || chr == '$'`. -/
def identStart (c : Char) : Bool :=
  c.isAlpha || c == '_' || c == '$'

/-- Continuation class of `ident`: `chr.is_ascii_alphanumeric() || chr == '_'`. -/
def identCont (c : Char) : Bool :=
  c.isAlphanum || c == '_'

/-- The `ident` function: one start character chained with
`filter(identCont).repeated()` (maximal munch via `takeWhile`). -/
def ident : List Char → Option (Token × List Char)
  | [] => none
  | c :: rest =>
    if identStart c then
      some (Token.Ident (c :: rest.takeWhile identCont), rest.dropWhile identCont)
    else
      none

/-- The `token` parser: the source's `or`-chain
`num.or(str_).or(kw_use).or(kw_pub).or(kw_arrow).or(kw_let).or(kw_in)
.or(kw_if).or(kw_then).or(kw_else).or(kw_true).or(kw_false).or(kw_where)
.or(kw_match).or(kw_when).or(kw_impl).or(kw_type).or(kw_enum).or(kw_mod)
.or(ctrl).or(operator).or(ident)` in exactly the source's order. -/
def token (l : List Char) : Option (Token × List Char) :=
  pOr (num l) (pOr (str_ l)
  (pOr (kwTok ['u', 's', 'e'] Token.Use l)
  (pOr (kwTok ['p', 'u', 'b'] Token.Pub l)
  (pOr (kwTok ['-', '>'] Token.Arrow l)
  (pOr (kwTok ['l', 'e', 't'] Token.Let l)
  (pOr (kwTok ['i', 'n'] Token.In l)
  (pOr (kwTok ['i', 'f'] Token.If l)
  (pOr (kwTok ['t', 'h', 'e', 'n'] Token.Then l)
  (pOr (kwTok ['e', 'l', 's', 'e'] Token.Else l)
  (pOr (kwTok ['t', 'r', 'u', 'e'] (Token.Bool true) l)
  (pOr (kwTok ['f', 'a', 'l', 's', 'e'] (Token.Bool false) l)
  (pOr (kwTok ['w', 'h', 'e', 'r', 'e'] Token.Where l)
  (pOr (kwTok ['m', 'a', 't', 'c', 'h'] Token.Match l)
  (pOr (kwTok ['w', 'h', 'e', 'n'] Token.When l)
  (pOr (kwTok ['i', 'm', 'p', 'l'] Token.Impl l)
  (pOr (kwTok ['t', 'y', 'p', 'e'] Token.TypeKw l)
  (pOr (kwTok ['e', 'n', 'u', 'm'] Token.Enum l)
  (pOr (kwTok ['m', 'o', 'd'] Token.Mod l)
  (pOr (ctrl l)
  (pOr (operator l)
  (ident l)))))))))))))))))))))

/-- One comment, with its own whitespace padding:
`just("#").then(take_until(just('\n'))).padded()`.
`take_until(just('\n'))` consumes up to and including the first newline and
fails when the input ends before a newline is found.  Returns the remainder,
or `none` when the comment parser fails (in which case the caller keeps the
original input: chumsky rewinds). -/
def comment1 (l : List Char) : Option (List Char) :=
  match (l.dropWhile isWhitespaceChar) with
  | '#' :: rest =>
    match rest.dropWhile (fun c => c != '\n') with
    | _ :: rest2 => some (rest2.dropWhile isWhitespaceChar)
    | [] => none
  | _ => none

/-- `comment.repeated()` as padding, with explicit fuel (each successful
`comment1` consumes at least the `#`, so `l.length` fuel is sufficient). -/
def commentsGo : Nat → List Char → List Char
  | 0, l => l
  | fuel + 1, l =>
    match comment1 l with
    | some r => commentsGo fuel r
    | none => l

/-- Leading padding of a token element: `.padded_by(comment.repeated()).padded()`
parses outer whitespace first, then any number of (themselves padded) comments. -/
def padLead (l : List Char) : List Char :=
  let l1 := l.dropWhile isWhitespaceChar
  commentsGo l1.length l1

/-- Trailing padding of a token element: any number of padded comments, then
the outer whitespace. -/
def padTrail (l : List Char) : List Char :=
  (commentsGo l.length l).dropWhile isWhitespaceChar

/-- The `skip_then_retry_until([])` recovery strategy: skip one input
character, retry the `token` parser, and keep skipping while it fails; fail
when the input is exhausted first. -/
def skipRetry : List Char → Option (Token × List Char)
  | [] => none
  | _ :: rest =>
    match token rest with
    | some tr => some tr
    | none => skipRetry rest

/-- Result of a scan: the spanned tokens, the recovery diagnostics, and the
remainder left unconsumed when the token loop stopped. -/
structure ScanResult where
  tokens : List (Token × Span)
  errors : List Span
  rest : List Char
deriving DecidableEq, Repr

/-- Absolute offset at which the element's token starts, after the leading
padding: `pos` plus the number of characters the padding consumed. -/
def posTok (pos : Nat) (l : List Char) : Nat :=
  pos + (l.length - (padLead l).length)

/-- Absolute offset just past the element's token, `r` being the remainder
after the token parse. -/
def posEnd (pos : Nat) (l : List Char) (r : List Char) : Nat :=
  posTok pos l + ((padLead l).length - r.length)

/-- Absolute offset after the element's trailing padding. -/
def posNext (pos : Nat) (l : List Char) (r : List Char) : Nat :=
  posEnd pos l r + (r.length - (padTrail r).length)

/-- The main loop
`token.map_with_span(|tok, span| (tok, span)).padded_by(comment.repeated()).padded().repeated()`.
`pos` is the absolute offset of the head of `l`.  A recovered token's span
starts at the position where the original parse failed (the whole consumed
range of `token.recover_with(...)`, which `map_with_span` observes), and one
diagnostic is recorded at that position.  When neither `token` nor the
recovery can make progress the loop stops, leaving `padLead l` unconsumed;
a final failed attempt contributes no diagnostics (chumsky discards the
errors of the backtracked attempt). -/
def scanGo : Nat → Nat → List Char → ScanResult
  | 0, _, l => ⟨[], [], l⟩
  | fuel + 1, pos, l =>
    match token (padLead l) with
    | some (t, r) =>
      let res := scanGo fuel (posNext pos l r) (padTrail r)
      ⟨(t, ⟨posTok pos l, posEnd pos l r⟩) :: res.tokens, res.errors, res.rest⟩
    | none =>
      match skipRetry (padLead l) with
      | some (t, r) =>
        let res := scanGo fuel (posNext pos l r) (padTrail r)
        ⟨(t, ⟨posTok pos l, posEnd pos l r⟩) :: res.tokens,
          ⟨posTok pos l, posTok pos l + 1⟩ :: res.errors, res.rest⟩
      | none => ⟨[], [], padLead l⟩

/-- `lexer().parse_recovery(input)`: run the token loop on the whole input.
`input.length + 1` fuel is sufficient because every iteration consumes at
least one character. -/
def scan (input : List Char) : ScanResult :=
  scanGo (input.length + 1) 0 input

/-- The exact source text whose parse produces a given token (for `Comment`,
which the token chain never produces, the value is immaterial). -/
def tokText : Token → List Char
  | Token.Ident s => s
  | Token.Arrow => ['-', '>']
  | Token.Ctrl c => [c]
  | Token.Op s => s
  | Token.Num s => s
  | Token.Str s => '"' :: (s ++ ['"'])
  | Token.If => ['i', 'f']
  | Token.Then => ['t', 'h', 'e', 'n']
  | Token.Else => ['e', 'l', 's', 'e']
  | Token.Let => ['l', 'e', 't']
  | Token.In => ['i', 'n']
  | Token.Where => ['w', 'h', 'e', 'r', 'e']
  | Token.Match => ['m', 'a', 't', 'c', 'h']
  | Token.When => ['w', 'h', 'e', 'n']
  | Token.TypeKw => ['t', 'y', 'p', 'e']
  | Token.Impl => ['i', 'm', 'p', 'l']
  | Token.Enum => ['e', 'n', 'u', 'm']
  | Token.Bool true => ['t', 'r', 'u', 'e']
  | Token.Bool false => ['f', 'a', 'l', 's', 'e']
  | Token.Use => ['u', 's', 'e']
  | Token.Pub => ['p', 'u', 'b']
  | Token.Mod => ['m', 'o', 'd']
  | Token.Comment s => '#' :: s

/-- Shape of an optional fractional part: empty, or a dot followed by at
least one decimal digit. -/
def fracOk : List Char → Bool
  | [] => true
  | '.' :: fs => !fs.isEmpty && fs.all Char.isDigit
  | _ => false

/-- Shape of a numeric-literal text as the code actually produces it: a
single `0` or a nonzero digit followed by digits (no leading zeroes), then
an optional `.`-and-digits fractional part. -/
def numShape : List Char → Bool
  | [] => false
  | c :: rest =>
    if c == '0' then fracOk rest
    else if c.isDigit then fracOk (rest.dropWhile Char.isDigit)
    else false

/-- `true` for every token except `Comment`. -/
def notCommentTok : Token → Bool
  | Token.Comment _ => false
  | _ => true

/-- `true` for every token except `Str`. -/
def notStrTok : Token → Bool
  | Token.Str _ => false
  | _ => true

/-- `true` unless the token is one of the operator tokens `+`, `|`, `++`,
`||` (which the control rule shadows). -/
def noPlusBarOp : Token → Bool
  | Token.Op s => !(s == ['+'] || s == ['|'] || s == ['+', '+'] || s == ['|', '|'])
  | _ => true

/-- The operator lexemes that appear in the `operator` chain. -/
def opLexemes : List (List Char) :=
  [['+'], ['-'], ['*'], ['/'], ['%'], ['=', '='], ['!', '='], ['<'], ['<', '='],
   ['>'], ['>', '='], ['&'], ['&', '&'], ['|'], ['|', '|'], ['^'], ['+', '+']]

/-- `spansFrom p spans` checks that each span starts no earlier than `p`
(respectively the previous span's stop), and is nonempty: spans are
non-overlapping with strictly increasing starts. -/
def spansFrom (p : Nat) : List Span → Bool
  | [] => true
  | s :: rest => decide (p ≤ s.start) && decide (s.start < s.stop) && spansFrom s.stop rest

/-- The substring of the input located by a span. -/
def slice (input : List Char) (sp : Span) : List Char :=
  (input.drop sp.start).take (sp.stop - sp.start)

/-- A trivia run: an interleaving of whitespace characters and comments,
where a comment is `#`, a newline-free body, and the terminating newline. -/
inductive IsTrivia : List Char → Prop
  | nil : IsTrivia []
  | ws : ∀ (c : Char) (r : List Char), isWhitespaceChar c = true → IsTrivia r →
      IsTrivia (c :: r)
  | comment : ∀ (body r : List Char), body.all (fun c => c != '\n') = true → IsTrivia r →
      IsTrivia ('#' :: (body ++ '\n' :: r))

/-- `Reconstructs input segs`: the input text splits into the given segments
in order, separated (and surrounded) only by trivia runs — i.e. concatenating
the segments reconstructs the input with whitespace and comments removed. -/
inductive Reconstructs : List Char → List (List Char) → Prop
  | nil : ∀ t, IsTrivia t → Reconstructs t []
  | cons : ∀ (t s rest : List Char) (segs : List (List Char)), IsTrivia t →
      Reconstructs rest segs → Reconstructs (t ++ (s ++ rest)) (s :: segs)

/-! ## Helper lemmas -/

theorem pOr_cases {α : Type} {a b : Option α} {v : α} (h : pOr a b = some v) :
    a = some v ∨ (a = none ∧ b = some v) := by
  cases a with
  | some x => exact Or.inl h
  | none => exact Or.inr ⟨rfl, h⟩

theorem startsWith_append : ∀ (s l : List Char), startsWith s l = true → s ++ l.drop s.length = l
  | [], l, _ => by simp
  | _ :: _, [], h => by simp [startsWith] at h
  | p :: ps, c :: cs, h => by
    simp only [startsWith, Bool.and_eq_true, beq_iff_eq] at h
    obtain ⟨rfl, h2⟩ := h
    simp only [List.cons_append, List.length_cons, List.drop_succ_cons]
    exact congrArg (List.cons p) (startsWith_append ps cs h2)

theorem all_takeWhile (p : Char → Bool) (l : List Char) : (l.takeWhile p).all p = true :=
  List.all_eq_true.mpr fun _ hx => List.mem_takeWhile_imp hx

theorem dropWhile_head_false {p : Char → Bool} :
    ∀ (l : List Char) {a : Char} {r : List Char}, l.dropWhile p = a :: r → p a = false
  | [], _, _, h => by simp at h
  | c :: cs, a, r, h => by
    rw [List.dropWhile_cons] at h
    split_ifs at h with hc
    · exact dropWhile_head_false cs h
    · injection h with h1 _
      subst h1
      exact Bool.eq_false_iff.mpr hc

theorem dropWhile_length_le (p : Char → Bool) (l : List Char) :
    (l.dropWhile p).length ≤ l.length := by
  induction l with
  | nil => simp
  | cons c cs ih =>
    rw [List.dropWhile_cons]
    split_ifs
    · exact Nat.le_trans ih (by simp)
    · simp

theorem int10_inv {l ds rest : List Char} (h : int10 l = some (ds, rest)) :
    ds ++ rest = l ∧ ds ≠ [] ∧
      (ds = ['0'] ∨ ∃ c ds0, ds = c :: ds0 ∧ (c.isDigit && c != '0') = true ∧
        ds0.all Char.isDigit = true) := by
  cases l with
  | nil => simp [int10] at h
  | cons c r =>
    simp only [int10] at h
    split_ifs at h with h1 h2
    · simp only [Option.some.injEq, Prod.mk.injEq] at h
      obtain ⟨rfl, rfl⟩ := h
      refine ⟨?_, by simp, Or.inr ⟨c, _, rfl, h1, all_takeWhile _ _⟩⟩
      simp [List.takeWhile_append_dropWhile]
    · simp only [Option.some.injEq, Prod.mk.injEq] at h
      obtain ⟨rfl, rfl⟩ := h
      have : c = '0' := by simpa using h2
      subst this
      exact ⟨rfl, by simp, Or.inl rfl⟩

theorem numFrac_inv {l fs rest2 : List Char} (h : numFrac l = some (fs, rest2)) :
    ∃ ds1, fs = '.' :: ds1 ∧ ds1 ≠ [] ∧ ds1.all Char.isDigit = true ∧ fs ++ rest2 = l := by
  cases l with
  | nil => simp [numFrac] at h
  | cons c r =>
    simp only [numFrac] at h
    split_ifs at h with h1 h2
    · simp only [Option.some.injEq, Prod.mk.injEq] at h
      obtain ⟨rfl, rfl⟩ := h
      subst h1
      refine ⟨_, rfl, ?_, all_takeWhile _ _, ?_⟩
      · intro hnil
        rw [hnil] at h2
        exact h2 rfl
      · simp [List.takeWhile_append_dropWhile]

theorem num_inv {l : List Char} {t : Token} {r : List Char} (h : num l = some (t, r)) :
    ∃ ds, t = Token.Num ds ∧ ds ++ r = l ∧ ds ≠ [] ∧ numShape ds = true := by
  unfold num at h
  cases hint : int10 l with
  | none => rw [hint] at h; exact absurd h (by simp)
  | some p =>
    obtain ⟨ds0, rest⟩ := p
    simp only [hint] at h
    obtain ⟨htext, hne, hshape⟩ := int10_inv hint
    have hbase : numShape ds0 = true := by
      rcases hshape with rfl | ⟨c, d0, rfl, hc, hall⟩
      · rfl
      · obtain ⟨hc1, hc2⟩ := Bool.and_eq_true .. |>.mp hc
        have hne0 : ¬(c = '0') := by simpa using hc2
        have hdw : d0.dropWhile Char.isDigit = [] :=
          List.dropWhile_eq_nil_iff.mpr (List.all_eq_true.mp hall)
        simp [numShape, hne0, hc1, hdw, fracOk]
    cases hfrac : numFrac rest with
    | some q =>
      obtain ⟨fs, rest2⟩ := q
      simp only [hfrac] at h
      simp only [Option.some.injEq, Prod.mk.injEq] at h
      obtain ⟨rfl, rfl⟩ := h
      obtain ⟨ds1, rfl, hds1ne, hds1all, hfstext⟩ := numFrac_inv hfrac
      have hds1e : ds1.isEmpty = false := by
        cases ds1 with
        | nil => exact absurd rfl hds1ne
        | cons _ _ => rfl
      refine ⟨_, rfl, ?_, by simp, ?_⟩
      · rw [← htext, ← hfstext]
        simp [List.append_assoc]
      · rcases hshape with rfl | ⟨c, d0, rfl, hc, hall⟩
        · simp [numShape, fracOk, hds1e, hds1all]
        · obtain ⟨hc1, hc2⟩ := Bool.and_eq_true .. |>.mp hc
          have hne0 : ¬(c = '0') := by simpa using hc2
          have hdw : d0.dropWhile Char.isDigit = [] :=
            List.dropWhile_eq_nil_iff.mpr (List.all_eq_true.mp hall)
          have hdot : Char.isDigit '.' = false := by decide
          simp [numShape, hne0, hc1, List.cons_append, List.dropWhile_append, hdw,
            List.dropWhile_cons, hdot, fracOk, hds1e, hds1all]
    | none =>
      simp only [hfrac] at h
      simp only [Option.some.injEq, Prod.mk.injEq] at h
      obtain ⟨rfl, rfl⟩ := h
      exact ⟨ds0, rfl, htext, hne, hbase⟩

theorem str_inv {l : List Char} {t : Token} {r : List Char} (h : str_ l = some (t, r)) :
    ∃ s, t = Token.Str s ∧ l = '"' :: (s ++ '"' :: r) ∧
      s.all (fun c => c != '"') = true := by
  unfold str_ at h
  split at h
  next rest =>
    split at h
    next rest2 heq =>
      simp only [Option.some.injEq, Prod.mk.injEq] at h
      obtain ⟨rfl, rfl⟩ := h
      refine ⟨_, rfl, ?_, all_takeWhile _ _⟩
      have hco := List.takeWhile_append_dropWhile (p := fun c => c != '"') (l := rest)
      rw [heq] at hco
      exact congrArg (fun x => '"' :: x) hco.symm
    next => exact absurd h (by simp)
  next => exact absurd h (by simp)

theorem ctrl_inv {l : List Char} {t : Token} {r : List Char} (h : ctrl l = some (t, r)) :
    ∃ c, t = Token.Ctrl c ∧ l = c :: r ∧ ctrlChars.contains c = true := by
  cases l with
  | nil => simp [ctrl] at h
  | cons c rest =>
    simp only [ctrl] at h
    split_ifs at h with hc
    simp only [Option.some.injEq, Prod.mk.injEq] at h
    obtain ⟨rfl, rfl⟩ := h
    exact ⟨c, rfl, rfl, hc⟩

theorem opC_inv {c : Char} {l : List Char} {t : Token} {r : List Char}
    (h : opC c l = some (t, r)) : t = Token.Op [c] ∧ l = c :: r := by
  cases l with
  | nil => simp [opC] at h
  | cons d rest =>
    simp only [opC] at h
    split_ifs at h with hd
    simp only [Option.some.injEq, Prod.mk.injEq] at h
    obtain ⟨rfl, rfl⟩ := h
    have : d = c := by simpa using hd
    subst this
    exact ⟨rfl, rfl⟩

theorem opS_inv {s l : List Char} {t : Token} {r : List Char}
    (h : opS s l = some (t, r)) : t = Token.Op s ∧ s ++ r = l := by
  unfold opS at h
  split_ifs at h with hs
  simp only [Option.some.injEq, Prod.mk.injEq] at h
  obtain ⟨rfl, rfl⟩ := h
  exact ⟨rfl, startsWith_append s l hs⟩

theorem kwTok_inv {s : List Char} {tok : Token} {l : List Char} {t : Token} {r : List Char}
    (h : kwTok s tok l = some (t, r)) : t = tok ∧ s ++ r = l := by
  unfold kwTok at h
  split_ifs at h with hs
  simp only [Option.some.injEq, Prod.mk.injEq] at h
  obtain ⟨rfl, rfl⟩ := h
  exact ⟨rfl, startsWith_append s l hs⟩

theorem ident_inv {l : List Char} {t : Token} {r : List Char} (h : ident l = some (t, r)) :
    ∃ s, t = Token.Ident s ∧ s ++ r = l ∧ s ≠ [] := by
  cases l with
  | nil => simp [ident] at h
  | cons c rest =>
    simp only [ident] at h
    split_ifs at h with hc
    simp only [Option.some.injEq, Prod.mk.injEq] at h
    obtain ⟨rfl, rfl⟩ := h
    exact ⟨_, rfl, by simp [List.takeWhile_append_dropWhile], by simp⟩

theorem ctrl_none_head {c : Char} {rest : List Char} (h : ctrl (c :: rest) = none) :
    ctrlChars.contains c = false := by
  cases hc : ctrlChars.contains c with
  | false => rfl
  | true =>
    exfalso
    simp [ctrl, hc] at h
    exact h (by simpa using hc)

theorem operator_inv {l : List Char} {t : Token} {r : List Char} (h : operator l = some (t, r)) :
    ∃ s, t = Token.Op s ∧ s ++ r = l ∧ s ∈ opLexemes := by
  unfold operator at h
  replace h := pOr_cases h
  rcases h with h | ⟨-, h⟩
  · obtain ⟨rfl, rfl⟩ := opC_inv h
    exact ⟨_, rfl, rfl, by decide⟩
  replace h := pOr_cases h
  rcases h with h | ⟨-, h⟩
  · obtain ⟨rfl, rfl⟩ := opC_inv h
    exact ⟨_, rfl, rfl, by decide⟩
  replace h := pOr_cases h
  rcases h with h | ⟨-, h⟩
  · obtain ⟨rfl, rfl⟩ := opC_inv h
    exact ⟨_, rfl, rfl, by decide⟩
  replace h := pOr_cases h
  rcases h with h | ⟨-, h⟩
  · obtain ⟨rfl, rfl⟩ := opC_inv h
    exact ⟨_, rfl, rfl, by decide⟩
  replace h := pOr_cases h
  rcases h with h | ⟨-, h⟩
  · obtain ⟨rfl, rfl⟩ := opC_inv h
    exact ⟨_, rfl, rfl, by decide⟩
  replace h := pOr_cases h
  rcases h with h | ⟨-, h⟩
  · obtain ⟨rfl, htext⟩ := opS_inv h
    exact ⟨_, rfl, htext, by decide⟩
  replace h := pOr_cases h
  rcases h with h | ⟨-, h⟩
  · obtain ⟨rfl, htext⟩ := opS_inv h
    exact ⟨_, rfl, htext, by decide⟩
  replace h := pOr_cases h
  rcases h with h | ⟨-, h⟩
  · obtain ⟨rfl, rfl⟩ := opC_inv h
    exact ⟨_, rfl, rfl, by decide⟩
  replace h := pOr_cases h
  rcases h with h | ⟨-, h⟩
  · obtain ⟨rfl, htext⟩ := opS_inv h
    exact ⟨_, rfl, htext, by decide⟩
  replace h := pOr_cases h
  rcases h with h | ⟨-, h⟩
  · obtain ⟨rfl, rfl⟩ := opC_inv h
    exact ⟨_, rfl, rfl, by decide⟩
  replace h := pOr_cases h
  rcases h with h | ⟨-, h⟩
  · obtain ⟨rfl, htext⟩ := opS_inv h
    exact ⟨_, rfl, htext, by decide⟩
  replace h := pOr_cases h
  rcases h with h | ⟨-, h⟩
  · obtain ⟨rfl, rfl⟩ := opC_inv h
    exact ⟨_, rfl, rfl, by decide⟩
  replace h := pOr_cases h
  rcases h with h | ⟨-, h⟩
  · obtain ⟨rfl, htext⟩ := opS_inv h
    exact ⟨_, rfl, htext, by decide⟩
  replace h := pOr_cases h
  rcases h with h | ⟨-, h⟩
  · obtain ⟨rfl, rfl⟩ := opC_inv h
    exact ⟨_, rfl, rfl, by decide⟩
  replace h := pOr_cases h
  rcases h with h | ⟨-, h⟩
  · obtain ⟨rfl, htext⟩ := opS_inv h
    exact ⟨_, rfl, htext, by decide⟩
  replace h := pOr_cases h
  rcases h with h | ⟨-, h⟩
  · obtain ⟨rfl, rfl⟩ := opC_inv h
    exact ⟨_, rfl, rfl, by decide⟩
  obtain ⟨rfl, htext⟩ := opS_inv h
  exact ⟨_, rfl, htext, by decide⟩

theorem token_props {l : List Char} {t : Token} {r : List Char} (h : token l = some (t, r)) :
    tokText t ++ r = l ∧ tokText t ≠ [] ∧ notCommentTok t = true ∧ noPlusBarOp t = true := by
  unfold token at h
  replace h := pOr_cases h
  rcases h with h | ⟨-, h⟩
  · obtain ⟨ds, rfl, htext, hne, -⟩ := num_inv h
    exact ⟨htext, hne, rfl, rfl⟩
  replace h := pOr_cases h
  rcases h with h | ⟨-, h⟩
  · obtain ⟨s, rfl, rfl, -⟩ := str_inv h
    refine ⟨?_, by simp [tokText], rfl, rfl⟩
    simp [tokText, List.append_assoc]
  replace h := pOr_cases h
  rcases h with h | ⟨-, h⟩
  · obtain ⟨rfl, htext⟩ := kwTok_inv h
    exact ⟨htext, by decide, rfl, rfl⟩
  replace h := pOr_cases h
  rcases h with h | ⟨-, h⟩
  · obtain ⟨rfl, htext⟩ := kwTok_inv h
    exact ⟨htext, by decide, rfl, rfl⟩
  replace h := pOr_cases h
  rcases h with h | ⟨-, h⟩
  · obtain ⟨rfl, htext⟩ := kwTok_inv h
    exact ⟨htext, by decide, rfl, rfl⟩
  replace h := pOr_cases h
  rcases h with h | ⟨-, h⟩
  · obtain ⟨rfl, htext⟩ := kwTok_inv h
    exact ⟨htext, by decide, rfl, rfl⟩
  replace h := pOr_cases h
  rcases h with h | ⟨-, h⟩
  · obtain ⟨rfl, htext⟩ := kwTok_inv h
    exact ⟨htext, by decide, rfl, rfl⟩
  replace h := pOr_cases h
  rcases h with h | ⟨-, h⟩
  · obtain ⟨rfl, htext⟩ := kwTok_inv h
    exact ⟨htext, by decide, rfl, rfl⟩
  replace h := pOr_cases h
  rcases h with h | ⟨-, h⟩
  · obtain ⟨rfl, htext⟩ := kwTok_inv h
    exact ⟨htext, by decide, rfl, rfl⟩
  replace h := pOr_cases h
  rcases h with h | ⟨-, h⟩
  · obtain ⟨rfl, htext⟩ := kwTok_inv h
    exact ⟨htext, by decide, rfl, rfl⟩
  replace h := pOr_cases h
  rcases h with h | ⟨-, h⟩
  · obtain ⟨rfl, htext⟩ := kwTok_inv h
    exact ⟨htext, by decide, rfl, rfl⟩
  replace h := pOr_cases h
  rcases h with h | ⟨-, h⟩
  · obtain ⟨rfl, htext⟩ := kwTok_inv h
    exact ⟨htext, by decide, rfl, rfl⟩
  replace h := pOr_cases h
  rcases h with h | ⟨-, h⟩
  · obtain ⟨rfl, htext⟩ := kwTok_inv h
    exact ⟨htext, by decide, rfl, rfl⟩
  replace h := pOr_cases h
  rcases h with h | ⟨-, h⟩
  · obtain ⟨rfl, htext⟩ := kwTok_inv h
    exact ⟨htext, by decide, rfl, rfl⟩
  replace h := pOr_cases h
  rcases h with h | ⟨-, h⟩
  · obtain ⟨rfl, htext⟩ := kwTok_inv h
    exact ⟨htext, by decide, rfl, rfl⟩
  replace h := pOr_cases h
  rcases h with h | ⟨-, h⟩
  · obtain ⟨rfl, htext⟩ := kwTok_inv h
    exact ⟨htext, by decide, rfl, rfl⟩
  replace h := pOr_cases h
  rcases h with h | ⟨-, h⟩
  · obtain ⟨rfl, htext⟩ := kwTok_inv h
    exact ⟨htext, by decide, rfl, rfl⟩
  replace h := pOr_cases h
  rcases h with h | ⟨-, h⟩
  · obtain ⟨rfl, htext⟩ := kwTok_inv h
    exact ⟨htext, by decide, rfl, rfl⟩
  replace h := pOr_cases h
  rcases h with h | ⟨-, h⟩
  · obtain ⟨rfl, htext⟩ := kwTok_inv h
    exact ⟨htext, by decide, rfl, rfl⟩
  replace h := pOr_cases h
  rcases h with h | ⟨hctrl, h⟩
  · obtain ⟨c, rfl, rfl, -⟩ := ctrl_inv h
    exact ⟨rfl, by simp [tokText], rfl, rfl⟩
  replace h := pOr_cases h
  rcases h with h | ⟨-, h⟩
  · obtain ⟨s, rfl, htext, hmem⟩ := operator_inv h
    simp only [opLexemes, List.mem_cons, List.not_mem_nil, or_false] at hmem
    rcases hmem with rfl | rfl | rfl | rfl | rfl | rfl | rfl | rfl | rfl | rfl | rfl | rfl |
      rfl | rfl | rfl | rfl | rfl
    · exact absurd (ctrl_none_head (show ctrl _ = none by rw [← htext] at hctrl; exact hctrl))
        (by decide)
    · exact ⟨htext, by decide, rfl, by decide⟩
    · exact ⟨htext, by decide, rfl, by decide⟩
    · exact ⟨htext, by decide, rfl, by decide⟩
    · exact ⟨htext, by decide, rfl, by decide⟩
    · exact ⟨htext, by decide, rfl, by decide⟩
    · exact ⟨htext, by decide, rfl, by decide⟩
    · exact ⟨htext, by decide, rfl, by decide⟩
    · exact ⟨htext, by decide, rfl, by decide⟩
    · exact ⟨htext, by decide, rfl, by decide⟩
    · exact ⟨htext, by decide, rfl, by decide⟩
    · exact ⟨htext, by decide, rfl, by decide⟩
    · exact ⟨htext, by decide, rfl, by decide⟩
    · exact absurd (ctrl_none_head (show ctrl _ = none by rw [← htext] at hctrl; exact hctrl))
        (by decide)
    · exact absurd (ctrl_none_head (show ctrl _ = none by rw [← htext] at hctrl; exact hctrl))
        (by decide)
    · exact ⟨htext, by decide, rfl, by decide⟩
    · exact absurd (ctrl_none_head (show ctrl _ = none by rw [← htext] at hctrl; exact hctrl))
        (by decide)
  obtain ⟨s, rfl, htext, hne⟩ := ident_inv h
  exact ⟨htext, hne, rfl, rfl⟩

theorem token_shrink {l : List Char} {t : Token} {r : List Char} (h : token l = some (t, r)) :
    r.length < l.length := by
  obtain ⟨htext, hne, -, -⟩ := token_props h
  rw [← htext, List.length_append]
  have := List.length_pos.mpr hne
  omega

theorem skipRetry_inv {t : Token} {r : List Char} :
    ∀ {l : List Char}, skipRetry l = some (t, r) →
      r.length < l.length ∧ notCommentTok t = true ∧ noPlusBarOp t = true
  | [], h => by simp [skipRetry] at h
  | c :: rest, h => by
    simp only [skipRetry] at h
    cases htok : token rest with
    | some tr =>
      rw [htok] at h
      obtain ⟨t', r'⟩ := tr
      simp only [Option.some.injEq, Prod.mk.injEq] at h
      obtain ⟨rfl, rfl⟩ := h
      obtain ⟨-, -, h3, h4⟩ := token_props htok
      have := token_shrink htok
      exact ⟨by simpa using Nat.lt_succ_of_lt this, h3, h4⟩
    | none =>
      rw [htok] at h
      obtain ⟨h1, h2, h3⟩ := skipRetry_inv h
      exact ⟨by simpa using Nat.lt_succ_of_lt h1, h2, h3⟩

/-! ## Trivia lemmas -/

theorem isTrivia_all_ws : ∀ (t : List Char), (∀ c ∈ t, isWhitespaceChar c = true) → IsTrivia t
  | [], _ => IsTrivia.nil
  | c :: r, h =>
    IsTrivia.ws c r (h c (by simp)) (isTrivia_all_ws r fun x hx => h x (by simp [hx]))

theorem isTrivia_append {a b : List Char} (ha : IsTrivia a) (hb : IsTrivia b) :
    IsTrivia (a ++ b) := by
  induction ha with
  | nil => simpa using hb
  | ws c r hc _ ih => exact IsTrivia.ws c _ hc ih
  | comment body r hbody _ ih =>
    have heq : ('#' :: (body ++ '\n' :: r)) ++ b = '#' :: (body ++ '\n' :: (r ++ b)) := by
      simp
    rw [heq]
    exact IsTrivia.comment body _ hbody ih

theorem dropWhile_decomp (p : Char → Bool) (l : List Char) :
    ∃ t, (∀ c ∈ t, p c = true) ∧ l = t ++ l.dropWhile p :=
  ⟨l.takeWhile p, fun _ hx => List.mem_takeWhile_imp hx,
   (List.takeWhile_append_dropWhile _ _).symm⟩

theorem dropWhile_ws_decomp (l : List Char) :
    ∃ t, IsTrivia t ∧ l = t ++ l.dropWhile isWhitespaceChar :=
  ⟨l.takeWhile isWhitespaceChar,
   isTrivia_all_ws _ (fun _ hx => List.mem_takeWhile_imp hx),
   (List.takeWhile_append_dropWhile _ _).symm⟩

theorem comment1_decomp {l r : List Char} (h : comment1 l = some r) :
    ∃ t, IsTrivia t ∧ t ≠ [] ∧ l = t ++ r := by
  unfold comment1 at h
  split at h
  next rest heq1 =>
    split at h
    next d rest2 heq2 =>
      simp only [Option.some.injEq] at h
      have hd : (d != '\n') = false :=
        dropWhile_head_false (p := fun c => c != '\n') rest heq2
      have hd' : d = '\n' := by simpa using hd
      subst hd'
      obtain ⟨A, hA, hAeq⟩ := dropWhile_decomp isWhitespaceChar l
      rw [heq1] at hAeq
      obtain ⟨B, hB, hBeq⟩ := dropWhile_decomp (fun c => c != '\n') rest
      rw [heq2] at hBeq
      obtain ⟨C, hC, hCeq⟩ := dropWhile_decomp isWhitespaceChar rest2
      rw [h] at hCeq
      refine ⟨A ++ ('#' :: (B ++ '\n' :: C)), ?_, by simp, ?_⟩
      · exact isTrivia_append (isTrivia_all_ws _ hA)
          (IsTrivia.comment _ _ (List.all_eq_true.mpr hB) (isTrivia_all_ws _ hC))
      · rw [hAeq, hBeq, hCeq]
        simp [List.append_assoc]
    next => exact absurd h (by simp)
  next => exact absurd h (by simp)

theorem comment1_shrink {l r : List Char} (h : comment1 l = some r) : r.length < l.length := by
  obtain ⟨t, -, hne, hl⟩ := comment1_decomp h
  rw [hl, List.length_append]
  have := List.length_pos.mpr hne
  omega

theorem commentsGo_decomp : ∀ (fuel : Nat) (l : List Char),
    ∃ t, IsTrivia t ∧ l = t ++ commentsGo fuel l
  | 0, l => ⟨[], IsTrivia.nil, rfl⟩
  | fuel + 1, l => by
    cases hc : comment1 l with
    | none => exact ⟨[], IsTrivia.nil, by simp [commentsGo, hc]⟩
    | some r =>
      obtain ⟨t1, ht1, -, hl⟩ := comment1_decomp hc
      obtain ⟨t2, ht2, hr⟩ := commentsGo_decomp fuel r
      refine ⟨t1 ++ t2, isTrivia_append ht1 ht2, ?_⟩
      have : commentsGo (fuel + 1) l = commentsGo fuel r := by simp [commentsGo, hc]
      rw [this, List.append_assoc, ← hr]
      exact hl

theorem padLead_decomp (l : List Char) : ∃ t, IsTrivia t ∧ l = t ++ padLead l := by
  obtain ⟨t1, ht1, h1⟩ := dropWhile_ws_decomp l
  obtain ⟨t2, ht2, h2⟩ := commentsGo_decomp (l.dropWhile isWhitespaceChar).length
    (l.dropWhile isWhitespaceChar)
  refine ⟨t1 ++ t2, isTrivia_append ht1 ht2, ?_⟩
  show l = (t1 ++ t2) ++ commentsGo (l.dropWhile isWhitespaceChar).length
    (l.dropWhile isWhitespaceChar)
  rw [List.append_assoc, ← h2]
  exact h1

theorem padTrail_decomp (l : List Char) : ∃ t, IsTrivia t ∧ l = t ++ padTrail l := by
  obtain ⟨t1, ht1, h1⟩ := commentsGo_decomp l.length l
  obtain ⟨t2, ht2, h2⟩ := dropWhile_ws_decomp (commentsGo l.length l)
  refine ⟨t1 ++ t2, isTrivia_append ht1 ht2, ?_⟩
  show l = (t1 ++ t2) ++ (commentsGo l.length l).dropWhile isWhitespaceChar
  rw [List.append_assoc, ← h2]
  exact h1

theorem padLead_length_le (l : List Char) : (padLead l).length ≤ l.length := by
  obtain ⟨t, -, h⟩ := padLead_decomp l
  conv_rhs => rw [h]
  simp

theorem padTrail_length_le (l : List Char) : (padTrail l).length ≤ l.length := by
  obtain ⟨t, -, h⟩ := padTrail_decomp l
  conv_rhs => rw [h]
  simp

/-! ## Scan-loop lemmas -/

theorem scanGo_succ_tok {fuel pos : Nat} {l : List Char} {t : Token} {r : List Char}
    (h : token (padLead l) = some (t, r)) :
    scanGo (fuel + 1) pos l =
      ⟨(t, ⟨posTok pos l, posEnd pos l r⟩) ::
          (scanGo fuel (posNext pos l r) (padTrail r)).tokens,
        (scanGo fuel (posNext pos l r) (padTrail r)).errors,
        (scanGo fuel (posNext pos l r) (padTrail r)).rest⟩ := by
  simp [scanGo, h]

theorem scanGo_succ_skip {fuel pos : Nat} {l : List Char} {t : Token} {r : List Char}
    (h1 : token (padLead l) = none) (h2 : skipRetry (padLead l) = some (t, r)) :
    scanGo (fuel + 1) pos l =
      ⟨(t, ⟨posTok pos l, posEnd pos l r⟩) ::
          (scanGo fuel (posNext pos l r) (padTrail r)).tokens,
        ⟨posTok pos l, posTok pos l + 1⟩ ::
          (scanGo fuel (posNext pos l r) (padTrail r)).errors,
        (scanGo fuel (posNext pos l r) (padTrail r)).rest⟩ := by
  simp [scanGo, h1, h2]

theorem scanGo_succ_stop {fuel pos : Nat} {l : List Char}
    (h1 : token (padLead l) = none) (h2 : skipRetry (padLead l) = none) :
    scanGo (fuel + 1) pos l = ⟨[], [], padLead l⟩ := by
  simp [scanGo, h1, h2]

theorem posTok_ge (pos : Nat) (l : List Char) : pos ≤ posTok pos l :=
  Nat.le_add_right _ _

theorem posEnd_gt {pos : Nat} {l r : List Char} (h : r.length < (padLead l).length) :
    posTok pos l < posEnd pos l r := by
  unfold posEnd
  omega

theorem posEnd_le_posNext (pos : Nat) (l r : List Char) :
    posEnd pos l r ≤ posNext pos l r :=
  Nat.le_add_right _ _

theorem spansFrom_anti {p q : Nat} (hpq : p ≤ q) :
    ∀ {ss : List Span}, spansFrom q ss = true → spansFrom p ss = true
  | [], _ => rfl
  | s :: rest, h => by
    simp only [spansFrom, Bool.and_eq_true, decide_eq_true_eq] at h ⊢
    exact ⟨⟨Nat.le_trans hpq h.1.1, h.1.2⟩, h.2⟩

theorem spansFrom_bounds {p : Nat} : ∀ {ss : List Span}, spansFrom p ss = true →
    ∀ s ∈ ss, p ≤ s.start ∧ s.start < s.stop
  | [], _, s, hs => absurd hs (List.not_mem_nil s)
  | s0 :: rest, h, s, hs => by
    simp only [spansFrom, Bool.and_eq_true, decide_eq_true_eq] at h
    obtain ⟨⟨h1, h2⟩, h3⟩ := h
    rcases List.mem_cons.mp hs with rfl | hs2
    · exact ⟨h1, h2⟩
    · have hb := spansFrom_bounds h3 s hs2
      exact ⟨by omega, hb.2⟩

theorem scanGo_spans : ∀ (fuel pos : Nat) (l : List Char),
    spansFrom pos (((scanGo fuel pos l).tokens).map (fun x => x.2)) = true
  | 0, _, _ => rfl
  | fuel + 1, pos, l => by
    cases htok : token (padLead l) with
    | some tr =>
      obtain ⟨t, r⟩ := tr
      rw [scanGo_succ_tok htok]
      simp only [List.map_cons, spansFrom, Bool.and_eq_true, decide_eq_true_eq]
      refine ⟨⟨posTok_ge pos l, posEnd_gt (token_shrink htok)⟩, ?_⟩
      exact spansFrom_anti (posEnd_le_posNext pos l r) (scanGo_spans fuel _ _)
    | none =>
      cases hskip : skipRetry (padLead l) with
      | some tr =>
        obtain ⟨t, r⟩ := tr
        rw [scanGo_succ_skip htok hskip]
        simp only [List.map_cons, spansFrom, Bool.and_eq_true, decide_eq_true_eq]
        refine ⟨⟨posTok_ge pos l, posEnd_gt (skipRetry_inv hskip).1⟩, ?_⟩
        exact spansFrom_anti (posEnd_le_posNext pos l r) (scanGo_spans fuel _ _)
      | none =>
        rw [scanGo_succ_stop htok hskip]
        rfl

theorem skipRetry_all {P : Token → Bool} (hP : ∀ l t r, token l = some (t, r) → P t = true) :
    ∀ (l : List Char) {t : Token} {r : List Char}, skipRetry l = some (t, r) → P t = true
  | [], t, r, h => by simp [skipRetry] at h
  | c :: rest, t, r, h => by
    simp only [skipRetry] at h
    cases htok : token rest with
    | some tr =>
      rw [htok] at h
      obtain ⟨t2, r2⟩ := tr
      simp only [Option.some.injEq, Prod.mk.injEq] at h
      obtain ⟨rfl, rfl⟩ := h
      exact hP _ _ _ htok
    | none =>
      rw [htok] at h
      exact skipRetry_all hP rest h

theorem scanGo_all {P : Token → Bool} (hP : ∀ l t r, token l = some (t, r) → P t = true) :
    ∀ (fuel pos : Nat) (l : List Char),
      ((scanGo fuel pos l).tokens).all (fun x => P x.1) = true
  | 0, _, _ => rfl
  | fuel + 1, pos, l => by
    cases htok : token (padLead l) with
    | some tr =>
      obtain ⟨t, r⟩ := tr
      rw [scanGo_succ_tok htok]
      simp only [List.all_cons, Bool.and_eq_true]
      exact ⟨hP _ _ _ htok, scanGo_all hP fuel _ _⟩
    | none =>
      cases hskip : skipRetry (padLead l) with
      | some tr =>
        obtain ⟨t, r⟩ := tr
        rw [scanGo_succ_skip htok hskip]
        simp only [List.all_cons, Bool.and_eq_true]
        exact ⟨skipRetry_all hP _ hskip, scanGo_all hP fuel _ _⟩
      | none =>
        rw [scanGo_succ_stop htok hskip]
        rfl

theorem reconstructs_trivia_prepend {tv x : List Char} {segs : List (List Char)}
    (htv : IsTrivia tv) (h : Reconstructs x segs) : Reconstructs (tv ++ x) segs := by
  cases h with
  | nil t ht => exact Reconstructs.nil _ (isTrivia_append htv ht)
  | cons t s rest segs ht hrest =>
    rw [← List.append_assoc]
    exact Reconstructs.cons (tv ++ t) s rest segs (isTrivia_append htv ht) hrest

theorem drop_append_len (a b : List Char) (n : Nat) :
    (a ++ b).drop (a.length + n) = b.drop n := by
  rw [← List.drop_drop, List.drop_left]

theorem scanGo_clean : ∀ (fuel : Nat) (input : List Char) (pos : Nat) (l : List Char),
    l = input.drop pos →
    (scanGo fuel pos l).errors = [] →
    (scanGo fuel pos l).rest = [] →
    Reconstructs l (((scanGo fuel pos l).tokens).map (fun x => tokText x.1)) ∧
    ∀ x ∈ (scanGo fuel pos l).tokens, slice input x.2 = tokText x.1
  | 0, input, pos, l, _, _, hrest => by
    have hl : l = [] := hrest
    subst hl
    exact ⟨Reconstructs.nil [] IsTrivia.nil, fun x hx => absurd hx (List.not_mem_nil x)⟩
  | fuel + 1, input, pos, l, hdrop, herr, hrest => by
    cases htok : token (padLead l) with
    | some tr =>
      obtain ⟨t, r⟩ := tr
      rw [scanGo_succ_tok htok] at herr hrest ⊢
      dsimp only at herr hrest ⊢
      obtain ⟨t1, ht1, hl1⟩ := padLead_decomp l
      obtain ⟨htext, htokne, -, -⟩ := token_props htok
      obtain ⟨t2, ht2, hr2⟩ := padTrail_decomp r
      have hlen1 : l.length = t1.length + (padLead l).length := by
        conv_lhs => rw [hl1]
        simp
      have hlen2 : (padLead l).length = (tokText t).length + r.length := by
        conv_lhs => rw [← htext]
        simp
      have hlen3 : r.length = t2.length + (padTrail r).length := by
        conv_lhs => rw [hr2]
        simp
      have hp1 : posTok pos l = pos + t1.length := by
        unfold posTok
        omega
      have hp2 : posEnd pos l r = pos + t1.length + (tokText t).length := by
        unfold posEnd posTok
        omega
      have hp3 : posNext pos l r =
          pos + (t1.length + ((tokText t).length + t2.length)) := by
        unfold posNext posEnd posTok
        omega
      have hldecomp : l = t1 ++ (tokText t ++ (t2 ++ padTrail r)) :=
        calc l = t1 ++ padLead l := hl1
          _ = t1 ++ (tokText t ++ r) := by rw [htext]
          _ = t1 ++ (tokText t ++ (t2 ++ padTrail r)) := by conv_lhs => rw [hr2]
      have hdropK : l.drop (t1.length + ((tokText t).length + t2.length)) = padTrail r := by
        rw [hldecomp, drop_append_len, drop_append_len, List.drop_left]
      have hdrop2 : padTrail r = input.drop (posNext pos l r) := by
        rw [hp3, ← hdropK, hdrop, List.drop_drop]
      obtain ⟨IH1, IH2⟩ := scanGo_clean fuel input (posNext pos l r) (padTrail r)
        hdrop2 herr hrest
      constructor
      · have hcons := Reconstructs.cons t1 (tokText t) _ _ ht1
          (reconstructs_trivia_prepend ht2 IH1)
        rw [← hldecomp] at hcons
        simpa using hcons
      · intro x hx
        rcases List.mem_cons.mp hx with rfl | hx2
        · have e1 : input.drop (pos + t1.length) = l.drop t1.length := by
            rw [hdrop, List.drop_drop]
          have h1 : input.drop (posTok pos l) = tokText t ++ (t2 ++ padTrail r) := by
            rw [hp1, e1, hldecomp, List.drop_left]
          have e2 : posEnd pos l r - posTok pos l = (tokText t).length := by
            rw [hp1, hp2]
            omega
          show slice input ⟨posTok pos l, posEnd pos l r⟩ = tokText t
          unfold slice
          dsimp only
          rw [h1, e2, List.take_left]
        · exact IH2 x hx2
    | none =>
      cases hskip : skipRetry (padLead l) with
      | some tr =>
        obtain ⟨t, r⟩ := tr
        rw [scanGo_succ_skip htok hskip] at herr
        simp at herr
      | none =>
        rw [scanGo_succ_stop htok hskip] at hrest ⊢
        have hple : padLead l = [] := hrest
        obtain ⟨t1, ht1, hl1⟩ := padLead_decomp l
        rw [hple, List.append_nil] at hl1
        refine ⟨?_, fun x hx => absurd hx (List.not_mem_nil x)⟩
        dsimp only
        rw [hl1]
        exact Reconstructs.nil t1 ht1

theorem comment1_newline {l r : List Char} (h : comment1 l = some r) : '\n' ∈ l := by
  unfold comment1 at h
  split at h
  next rest heq1 =>
    split at h
    next d rest2 heq2 =>
      have hd : (d != '\n') = false :=
        dropWhile_head_false (p := fun c => c != '\n') rest heq2
      have hd2 : d = '\n' := by simpa using hd
      subst hd2
      have h1 : '\n' ∈ rest := by
        obtain ⟨tw, -, hdec⟩ := dropWhile_decomp (fun c => c != '\n') rest
        rw [hdec, heq2]
        exact List.mem_append_right _ (List.mem_cons_self _ _)
      have h2 : '\n' ∈ l.dropWhile isWhitespaceChar := by
        rw [heq1]
        exact List.mem_cons_of_mem _ h1
      obtain ⟨tw2, -, hdec2⟩ := dropWhile_decomp isWhitespaceChar l
      rw [hdec2]
      exact List.mem_append_right _ h2
    next => exact absurd h (by simp)
  next => exact absurd h (by simp)

/-! ## Claim theorems -/

/-- Claim C1 states that an identifier lexeme is scanned by maximal munch
first and only then classified as a keyword, so that `"index"` lexes as the
single token `Ident "index"`.  The code instead tries each keyword as a plain
prefix match (`just("in")` etc.) before the identifier rule, so `"index"`
lexes as the keyword `In` followed by `Ident "dex"`.  This theorem evaluates
the lexer at the claim's own input, exhibiting the divergence. -/
theorem claim_C1_keyword_prefix_eval :
    scan ("index".toList) =
      ⟨[(Token.In, ⟨0, 2⟩), (Token.Ident ("dex".toList), ⟨2, 5⟩)], [], []⟩ ∧
    (scan ("index".toList)).tokens.map (fun x => x.1) ≠ [Token.Ident ("index".toList)] := by
  decide

/-- Claim C2 states that multi-character operators are matched before their
single-character prefixes, so `"<="` is one `Op "<="` token and similarly for
`"=="`, `"!="`, `">="`, `"&&"`, `"||"`, `"++"`, `"->"`.  In the code the
single-character operator alternatives precede the two-character ones
(`op_less` before `op_less_eq`, `op_bit_and` before `op_logical_and`), and
the `ctrl` rule precedes `operator` entirely (shadowing `=`, `|`, `+`), so
only `"!="` and `"->"` behave as claimed.  This theorem evaluates the lexer
at each of the claim's inputs. -/
theorem claim_C2_operator_order_eval :
    scan ("<=".toList) = ⟨[(Token.Op ['<'], ⟨0, 1⟩), (Token.Ctrl '=', ⟨1, 2⟩)], [], []⟩ ∧
    scan (">=".toList) = ⟨[(Token.Op ['>'], ⟨0, 1⟩), (Token.Ctrl '=', ⟨1, 2⟩)], [], []⟩ ∧
    scan ("==".toList) = ⟨[(Token.Ctrl '=', ⟨0, 1⟩), (Token.Ctrl '=', ⟨1, 2⟩)], [], []⟩ ∧
    scan ("&&".toList) = ⟨[(Token.Op ['&'], ⟨0, 1⟩), (Token.Op ['&'], ⟨1, 2⟩)], [], []⟩ ∧
    scan ("||".toList) = ⟨[(Token.Ctrl '|', ⟨0, 1⟩), (Token.Ctrl '|', ⟨1, 2⟩)], [], []⟩ ∧
    scan ("++".toList) = ⟨[(Token.Ctrl '+', ⟨0, 1⟩), (Token.Ctrl '+', ⟨1, 2⟩)], [], []⟩ ∧
    scan ("!=".toList) = ⟨[(Token.Op ("!=".toList), ⟨0, 2⟩)], [], []⟩ ∧
    scan ("->".toList) = ⟨[(Token.Arrow, ⟨0, 2⟩)], [], []⟩ := by
  decide

/-- Claim C3 asserts (among other things) that a run of digits with leading
zeros such as `"007"` is a single `Num` token.  `text::int(10)` rejects
leading zeros, so `"007"` lexes as three `Num` tokens, refuting the claim at
its own example. -/
theorem claim_C3_counterexample :
    (scan ("007".toList)).tokens.map (fun x => x.1) =
      [Token.Num ['0'], Token.Num ['0'], Token.Num ['7']] ∧
    (scan ("007".toList)).tokens.map (fun x => x.1) ≠ [Token.Num ("007".toList)] := by
  decide

/-- Claim C3, amended: a numeric literal is a single `0` or a nonzero digit
followed by digits (leading-zero runs split into several `Num` tokens, e.g.
`"007"` gives three), optionally followed by `.` and one or more digits; when
no digit follows the dot, the dot is not consumed: `"3."` yields `Num "3"`
then `Ctrl '.'`, `"42"` yields `Num "42"`, `"3.14"` yields `Num "3.14"`. -/
theorem claim_C3_amended :
    (∀ (l : List Char) (t : Token) (r : List Char), num l = some (t, r) →
      ∃ ds, t = Token.Num ds ∧ ds ++ r = l ∧ numShape ds = true) ∧
    scan ("42".toList) = ⟨[(Token.Num ("42".toList), ⟨0, 2⟩)], [], []⟩ ∧
    scan ("3.14".toList) = ⟨[(Token.Num ("3.14".toList), ⟨0, 4⟩)], [], []⟩ ∧
    scan ("3.".toList) =
      ⟨[(Token.Num ['3'], ⟨0, 1⟩), (Token.Ctrl '.', ⟨1, 2⟩)], [], []⟩ ∧
    (scan ("007".toList)).tokens.map (fun x => x.1) =
      [Token.Num ['0'], Token.Num ['0'], Token.Num ['7']] := by
  refine ⟨?_, by decide, by decide, by decide, by decide⟩
  intro l t r h
  obtain ⟨ds, rfl, htext, -, hshape⟩ := num_inv h
  exact ⟨ds, rfl, htext, hshape⟩

/-- Witness for the amended claim C3, instantiating its general part at the
concrete parse of `"42"`. -/
theorem claim_C3_amended_witness :
    ∃ ds, Token.Num ("42".toList) = Token.Num ds ∧ ds ++ [] = "42".toList ∧
      numShape ds = true :=
  claim_C3_amended.1 ("42".toList) (Token.Num ("42".toList)) [] (by decide)

/-- Claim C4: a string literal is a double quote, a run of non-quote
characters and a closing quote, and the `Str` token carries exactly the inner
text; `"\"abc\""` yields `Str "abc"`, and an unterminated string (`"\"abc"`)
yields a diagnostic and no `Str` token for that span. -/
theorem claim_C4_string_literals :
    (∀ (l : List Char) (t : Token) (r : List Char), str_ l = some (t, r) →
      ∃ s, t = Token.Str s ∧ l = '"' :: (s ++ '"' :: r) ∧
        s.all (fun c => c != '"') = true) ∧
    scan ("\"abc\"".toList) = ⟨[(Token.Str ("abc".toList), ⟨0, 5⟩)], [], []⟩ ∧
    (scan ("\"abc".toList)).errors = [⟨0, 1⟩] ∧
    ((scan ("\"abc".toList)).tokens).all (fun x => notStrTok x.1) = true :=
  ⟨fun _ _ _ h => str_inv h, by decide, by decide, by decide⟩

/-- Witness for claim C4, instantiating its general part at the concrete
parse of `"\"ab\""`. -/
theorem claim_C4_string_literals_witness :
    ∃ s, Token.Str ("ab".toList) = Token.Str s ∧
      "\"ab\"".toList = '"' :: (s ++ '"' :: []) ∧ s.all (fun c => c != '"') = true :=
  claim_C4_string_literals.1 ("\"ab\"".toList) (Token.Str ("ab".toList)) [] (by decide)

/-- Claim C5: lexical errors are not fatal; the input `"let x = 1 @ in x"`
yields the same token sequence as the input with the `@` deleted, plus
exactly one diagnostic at the span of the `@` (offsets 10..11). -/
theorem claim_C5_recovery_eval :
    (scan ("let x = 1 @ in x".toList)).tokens.map (fun x => x.1) =
      (scan ("let x = 1  in x".toList)).tokens.map (fun x => x.1) ∧
    (scan ("let x = 1 @ in x".toList)).errors = [⟨10, 11⟩] ∧
    (scan ("let x = 1  in x".toList)).errors = [] := by
  decide

/-- Claim C6: for every input, the spans of the returned tokens are
non-overlapping (each token's stop bounds the next token's start) and each
span is nonempty, so start offsets are strictly increasing in stream order. -/
theorem claim_C6_span_monotonic (input : List Char) :
    spansFrom 0 (((scan input).tokens).map (fun x => x.2)) = true :=
  scanGo_spans (input.length + 1) 0 input

/-- Claim C7: for every input that the lexer consumes without diagnostics,
the source substrings located by the returned spans, taken in stream order,
decompose the input with only trivia (whitespace and comments) in between —
concatenating them reconstructs the input with whitespace and comments
removed. -/
theorem claim_C7_round_trip (input : List Char)
    (herr : (scan input).errors = []) (hrest : (scan input).rest = []) :
    Reconstructs input (((scan input).tokens).map (fun x => slice input x.2)) := by
  obtain ⟨h1, h2⟩ := scanGo_clean (input.length + 1) input 0 input (by simp) herr hrest
  have hmap : ((scan input).tokens).map (fun x => slice input x.2) =
      ((scan input).tokens).map (fun x => tokText x.1) :=
    List.map_congr_left (fun x hx => h2 x hx)
  rw [hmap]
  exact h1

/-- Witness for claim C7 at a concrete input containing a comment. -/
theorem claim_C7_round_trip_witness :
    Reconstructs ("let x = 1 # c\nin x".toList)
      (((scan ("let x = 1 # c\nin x".toList)).tokens).map
        (fun x => slice ("let x = 1 # c\nin x".toList) x.2)) :=
  claim_C7_round_trip ("let x = 1 # c\nin x".toList) (by decide) (by decide)

/-- Claim C8: comments and whitespace are trivia: no scan ever returns a
`Comment` token, and the concrete input `"let x = 1 # comment\nin x"` yields
the same token sequence as the same input with the comment text removed. -/
theorem claim_C8_comment_trivia :
    (∀ input : List Char, ((scan input).tokens).all (fun x => notCommentTok x.1) = true) ∧
    (scan ("let x = 1 # comment\nin x".toList)).tokens.map (fun x => x.1) =
      (scan ("let x = 1 \nin x".toList)).tokens.map (fun x => x.1) := by
  refine ⟨fun input => ?_, by decide⟩
  exact scanGo_all (fun _ _ _ h => (token_props h).2.2.1) (input.length + 1) 0 input

/-- Claim C9: the rule ordering makes the `ctrl` rule shadow the operator
meaning of `+` and `|`: a token starting with `+` (resp. `|`) is always
`Ctrl '+'` (resp. `Ctrl '|'`), and the tokens `Op "+"`, `Op "|"`, `Op "++"`,
`Op "||"` are never produced by any scan. -/
theorem claim_C9_ctrl_shadows_plus_bar :
    (∀ r : List Char, token ('+' :: r) = some (Token.Ctrl '+', r)) ∧
    (∀ r : List Char, token ('|' :: r) = some (Token.Ctrl '|', r)) ∧
    (∀ input : List Char, ((scan input).tokens).all (fun x => noPlusBarOp x.1) = true) := by
  refine ⟨fun _ => rfl, fun _ => rfl, fun input => ?_⟩
  exact scanGo_all (fun _ _ _ h => (token_props h).2.2.2) (input.length + 1) 0 input

/-- Claim C10: the comment rule succeeds only when a newline terminates the
comment; a `#` matches no token rule, so a `#` whose comment never finds a
newline is handled by skip-and-retry recovery: `"a # b"` (no newline) lexes
with a recovery diagnostic at the `#` while `"a # b\n"` absorbs the comment
as trivia. -/
theorem claim_C10_comment_requires_newline :
    (∀ l : List Char, l.all (fun c => c != '\n') = true → comment1 l = none) ∧
    (∀ r : List Char, token ('#' :: r) = none) ∧
    scan ("a # b".toList) =
      ⟨[(Token.Ident ['a'], ⟨0, 1⟩), (Token.Ident ['b'], ⟨2, 5⟩)], [⟨2, 3⟩], []⟩ ∧
    scan ("a # b\n".toList) = ⟨[(Token.Ident ['a'], ⟨0, 1⟩)], [], []⟩ := by
  refine ⟨?_, fun _ => rfl, by decide, by decide⟩
  intro l hall
  cases hc : comment1 l with
  | none => rfl
  | some r =>
    have hnl := comment1_newline hc
    have hfalse := List.all_eq_true.mp hall '\n' hnl
    simp at hfalse

/-- Witness for claim C10, instantiating its first part at the newline-free
input `"# b"`. -/
theorem claim_C10_comment_requires_newline_witness :
    comment1 ("# b".toList) = none :=
  claim_C10_comment_requires_newline.1 ("# b".toList) (by decide)

end VunkLexer
